import Mathlib

/-!
# Verification of the `Red-Black-Tree` repository (`src/rb_tree.c`)

Shallow embedding of the red-black tree library.  Pointer trees become an
inductive `Tree`; the parent pointers used by the fix-up loops become an
explicit path (zipper) of `Frame`s from the focused node up to the root; the
`while`/`goto` loops of the two fix-up procedures become fuel-indexed
recursion, where running out of fuel is the distinguished result `fuelOut`
and a null-pointer dereference performed by the C code is the distinguished
result `crash`.  Keys and values are opaque type parameters, and the
caller-supplied comparator `rbTree_MatchRuleHandle` is a parameter
`cmp : K → K → Int`, exactly as in the source.
-/

namespace RBTree

/-- Node colors, `RB_COLOR` in the source (`RB_ERR` is never assigned). -/
inductive Color : Type where
  | red
  | black
deriving DecidableEq

/-- `rbTreeNode_t`: color, index (key), resource (value), left and right
children.  The `parent` back pointer of the C struct is represented by the
zipper paths below, not stored in the node. -/
inductive Tree (K V : Type) : Type where
  | nil
  | node (c : Color) (k : K) (v : V) (l r : Tree K V)
deriving DecidableEq

variable {K V : Type}

/-- Which child of its parent a focused subtree is. -/
inductive Dir : Type where
  | left
  | right
deriving DecidableEq

/-- The opposite side. -/
def Dir.opp : Dir → Dir
  | .left => .right
  | .right => .left

/-- One ancestor on the path from a focused subtree to the root: the side the
focus is on, the ancestor's color, key and value, and the ancestor's other
child.  This is the functional image of the `parent` pointer chain. -/
structure Frame (K V : Type) : Type where
  dir : Dir
  c : Color
  k : K
  v : V
  sib : Tree K V
deriving DecidableEq

/-- A path from a focused position to the root, innermost ancestor first. -/
abbrev Path (K V : Type) : Type := List (Frame K V)

/-- Rebuild the whole tree from a focused subtree and its path. -/
def plug : Tree K V → Path K V → Tree K V
  | t, [] => t
  | t, ⟨.left, c, k, v, sib⟩ :: p => plug (.node c k v t sib) p
  | t, ⟨.right, c, k, v, sib⟩ :: p => plug (.node c k v sib t) p

/-- In-order list of (key, value) pairs. -/
def toList : Tree K V → List (K × V)
  | .nil => []
  | .node _ k v l r => toList l ++ (k, v) :: toList r

/-- In-order key list. -/
def keyList (t : Tree K V) : List K := (toList t).map Prod.fst

/-- Whether a (possibly absent) node is red; absent nodes count as black,
as in `rbTreePrivate_GetNodeColor`. -/
def isRed : Tree K V → Bool
  | .node .red _ _ _ _ => true
  | _ => false

/-- Force a node black, as in `(*root)->color = RB_BLACK` and the child
recoloring done by the one-child delete splice. -/
def blacken : Tree K V → Tree K V
  | .nil => .nil
  | .node _ k v l r => .node .black k v l r

/-- Result of running a loop translated with fuel: a normal value, a
null-pointer dereference performed by the C code (`crash`), or fuel
exhaustion (`fuelOut`, which the termination theorems rule out). -/
inductive RunRes (α : Type) : Type where
  | ok (a : α)
  | crash
  | fuelOut
deriving DecidableEq

/-! ## Search (`rbTreePrivate_Search`, `rbTree_Search`) -/

/-- `rbTreePrivate_Search`: descend from the root; `match_ret = cmp(index,
probe->index)`; zero means found, positive goes left, negative goes right. -/
def rbTreePrivate_Search (cmp : K → K → Int) : Tree K V → K → Option (K × V)
  | .nil, _ => none
  | .node _ k v l r, i =>
    if cmp i k = 0 then some (k, v)
    else if 0 < cmp i k then rbTreePrivate_Search cmp l i
    else rbTreePrivate_Search cmp r i

/-- `rbTree_Search`: return the found node's resource, or NULL (none). -/
def rbTree_Search (cmp : K → K → Int) (t : Tree K V) (i : K) : Option V :=
  (rbTreePrivate_Search cmp t i).map Prod.snd

/-! ## Insertion (`rbTree_AddNode`, `rbTreePrivate_InsertAdjust`) -/

/-- The descent loop of `rbTree_AddNode`: `match_ret =
cmp(fast->index, index)`; zero reports a duplicate (`none` here), negative
goes left, otherwise right.  The path records each step; the final placement
of the new node re-applies the comparator to the remembered parent in the
C code, which (for a deterministic comparator) picks the same side the
descent took, so the accumulated path already encodes the placement. -/
def addDescend (cmp : K → K → Int) (i : K) :
    Tree K V → Path K V → Option (Path K V)
  | .nil, p => some p
  | .node c k v l r, p =>
    if cmp k i = 0 then none
    else if cmp k i < 0 then addDescend cmp i l (⟨.left, c, k, v, r⟩ :: p)
    else addDescend cmp i r (⟨.right, c, k, v, l⟩ :: p)

/-- `rbTreePrivate_InsertAdjust`, one loop iteration per unit of fuel.
The focus (`new_node`) is the subtree `fc fk fv fl fr`; `p` is its path.

* path empty: loop condition `new_node->parent` fails; force the root black.
* parent black: loop condition fails; force the root black.
* parent red, no grandparent: the C code dereferences
  `new_node->parent->parent` — a null dereference (`crash`).
* uncle red: recolor parent and uncle black, grandparent red, continue from
  the grandparent.
* uncle black/absent, inner child: rotate the parent away (the focus becomes
  the old parent), then fall into the outer case.
* outer case: recolor parent black, grandparent red, rotate the grandparent
  toward the uncle; afterwards the focus's parent is black, so the loop
  exits and the root is forced black. -/
def rbTreePrivate_InsertAdjust (fuel : Nat) (fc : Color) (fk : K) (fv : V)
    (fl fr : Tree K V) (p : Path K V) : RunRes (Tree K V) :=
  match fuel with
  | 0 => .fuelOut
  | fuel + 1 =>
    match p with
    | [] => .ok (blacken (.node fc fk fv fl fr))
    | pf :: rest =>
      if pf.c = .red then
        match rest with
        | [] => .crash
        | gf :: rest2 =>
          match gf.dir with
          | .left =>
            -- parent is the grandparent's left child; uncle = gp->right
            match gf.sib with
            | .node .red uk uv ul ur =>
              -- uncle red: recolor and continue from the grandparent
              match pf.dir with
              | .left =>
                rbTreePrivate_InsertAdjust fuel .red gf.k gf.v
                  (.node .black pf.k pf.v (.node fc fk fv fl fr) pf.sib)
                  (.node .black uk uv ul ur) rest2
              | .right =>
                rbTreePrivate_InsertAdjust fuel .red gf.k gf.v
                  (.node .black pf.k pf.v pf.sib (.node fc fk fv fl fr))
                  (.node .black uk uv ul ur) rest2
            | _ =>
              match pf.dir with
              | .right =>
                -- LR: left-rotate the parent, then the LL handling:
                -- parent (now the risen focus) black, grandparent red,
                -- right-rotate the grandparent; loop exits.
                .ok (blacken (plug
                  (.node .black fk fv
                    (.node pf.c pf.k pf.v pf.sib fl)
                    (.node .red gf.k gf.v fr gf.sib)) rest2))
              | .left =>
                -- LL: parent black, grandparent red, right-rotate the
                -- grandparent; loop exits.
                .ok (blacken (plug
                  (.node .black pf.k pf.v
                    (.node fc fk fv fl fr)
                    (.node .red gf.k gf.v pf.sib gf.sib)) rest2))
          | .right =>
            -- parent is the grandparent's right child; uncle = gp->left
            match gf.sib with
            | .node .red uk uv ul ur =>
              match pf.dir with
              | .left =>
                rbTreePrivate_InsertAdjust fuel .red gf.k gf.v
                  (.node .black uk uv ul ur)
                  (.node .black pf.k pf.v (.node fc fk fv fl fr) pf.sib) rest2
              | .right =>
                rbTreePrivate_InsertAdjust fuel .red gf.k gf.v
                  (.node .black uk uv ul ur)
                  (.node .black pf.k pf.v pf.sib (.node fc fk fv fl fr)) rest2
            | _ =>
              match pf.dir with
              | .left =>
                -- RL: right-rotate the parent, then the RR handling.
                .ok (blacken (plug
                  (.node .black fk fv
                    (.node .red gf.k gf.v gf.sib fl)
                    (.node pf.c pf.k pf.v fr pf.sib)) rest2))
              | .right =>
                -- RR: parent black, grandparent red, left-rotate the
                -- grandparent; loop exits.
                .ok (blacken (plug
                  (.node .black pf.k pf.v
                    (.node .red gf.k gf.v gf.sib pf.sib)
                    (.node fc fk fv fl fr)) rest2))
      else
        .ok (blacken (plug (.node fc fk fv fl fr) p))

/-- Outcome of `rbTree_AddNode`: success or duplicate key both carry the
resulting root (the duplicate path returns before any mutation, so it
carries the unchanged input tree), plus the two loop-translation outcomes.
Argument errors and out-of-memory cannot arise in the model. -/
inductive AddR (K V : Type) : Type where
  | okT (t : Tree K V)
  | dupT (t : Tree K V)
  | crash
  | fuelOut
deriving DecidableEq

/-- `rbTree_AddNode`: descend (duplicate check), attach a fresh red leaf at
the nil position reached, run the insert fix-up. -/
def rbTree_AddNode (cmp : K → K → Int) (t : Tree K V) (i : K) (v : V) :
    AddR K V :=
  match addDescend cmp i t [] with
  | none => .dupT t
  | some p =>
    match rbTreePrivate_InsertAdjust (p.length + 1) .red i v .nil .nil p with
    | .ok t2 => .okT t2
    | .crash => .crash
    | .fuelOut => .fuelOut

/-! ## Deletion (`rbTree_DelNode` and its helpers) -/

/-- The same descent as `rbTreePrivate_Search`, recording the path so the
found node's position is available for the structural deletion. -/
def delSearch (cmp : K → K → Int) (i : K) :
    Tree K V → Path K V →
    Option ((Color × K × V × Tree K V × Tree K V) × Path K V)
  | .nil, _ => none
  | .node c k v l r, p =>
    if cmp i k = 0 then some ((c, k, v, l, r), p)
    else if 0 < cmp i k then delSearch cmp i l (⟨.left, c, k, v, r⟩ :: p)
    else delSearch cmp i r (⟨.right, c, k, v, l⟩ :: p)

/-- `min_right_tree = target->right; while (min_right_tree->left) ...`:
walk to the leftmost node of a subtree, recording the path. -/
def leftmostZ (c : Color) (k : K) (v : V) :
    Tree K V → Tree K V → Path K V →
    (Color × K × V × Tree K V) × Path K V
  | .nil, r, p => ((c, k, v, r), p)
  | .node lc lk lv ll lr, r, p =>
    leftmostZ lc lk lv ll lr (⟨.left, c, k, v, r⟩ :: p)

/-- Build the parent's subtree during the delete fix-up: `uncle` sits on
side `s` of the parent, the deficit subtree on the other side. -/
def mkP (pc : Color) (pk : K) (pv : V) (s : Dir) (uncle dsub : Tree K V) :
    Tree K V :=
  match s with
  | .left => .node pc pk pv uncle dsub
  | .right => .node pc pk pv dsub uncle

/-- The `READJUST_FLAG` loop of `rbTreePrivate_DelBlackNodeAndAdjust`.
State: path `above` the parent, the parent's color/key/value, the side `s`
holding `uncle` (the sibling of the deficit), and the deficit subtree
`dsub`.  One loop iteration per unit of fuel.

* `uncle` nil: the loop reads `uncle->color` — null dereference (only
  reachable after a re-seed picked a nil sibling).
* `uncle` red: parent red, uncle black, then rotate the parent twice toward
  `uncle`'s side; the second rotation reads `target->left` (resp. right),
  which is the uncle's former near child — nil there is a null dereference.
* `uncle` black with a red far child: far child black, uncle takes the
  parent's color, parent black, rotate the parent toward the uncle.
* `uncle` black with a red near child only: the code rotates the uncle,
  recolors, then rotates `uncle->parent` — which by then is the risen near
  child, so the second rotation exactly undoes the first; the net effect is
  the two recolorings alone (the structure is unchanged).
* `uncle` black with no red child, parent black: uncle red; if a
  grandparent exists re-seed `uncle` as the parent's sibling one level up
  and continue, else return.
* `uncle` black with no red child, parent red: uncle red, parent black. -/
def delAdjust : Nat → Path K V → Color → K → V → Dir → Tree K V →
    Tree K V → RunRes (Tree K V)
  | 0, _, _, _, _, _, _, _ => .fuelOut
  | fuel + 1, above, pc, pk, pv, s, uncle, dsub =>
    match uncle with
    | .nil => .crash
    | .node uc uk uv ul ur =>
      if uc = .red then
        match s with
        | .left =>
          -- two RightRotate(P); after the first, P->left = ur
          match ur with
          | .nil => .crash
          | .node bc bk bv bl br =>
            .ok (plug (.node .black uk uv ul
              (.node bc bk bv bl (.node .red pk pv br dsub))) above)
        | .right =>
          -- two LeftRotate(P); after the first, P->right = ul
          match ul with
          | .nil => .crash
          | .node bc bk bv bl br =>
            .ok (plug (.node .black uk uv
              (.node bc bk bv (.node .red pk pv dsub bl) br) ur) above)
      else
        match s with
        | .left =>
          if isRed ul then
            match ul with
            | .node _ lk2 lv2 la lb =>
              -- far red child: recolor, RightRotate(P)
              .ok (plug (.node pc uk uv (.node .black lk2 lv2 la lb)
                (.node .black pk pv ur dsub)) above)
            | .nil => .crash
          else if isRed ur then
            match ur with
            | .node _ rk2 rv2 ra rb =>
              -- near red child: LeftRotate(uncle), recolor, then
              -- RightRotate(uncle->parent) — the risen child — which undoes
              -- the first rotation; net effect: near child takes the
              -- parent's color, parent black, structure unchanged.
              .ok (plug (.node .black pk pv
                (.node .black uk uv ul (.node pc rk2 rv2 ra rb)) dsub) above)
            | .nil => .crash
          else
            if pc = .black then
              match above with
              | [] =>
                .ok (.node pc pk pv (.node .red uk uv ul ur) dsub)
              | gf :: rest2 =>
                delAdjust fuel rest2 gf.c gf.k gf.v gf.dir.opp gf.sib
                  (.node pc pk pv (.node .red uk uv ul ur) dsub)
            else
              .ok (plug (.node .black pk pv (.node .red uk uv ul ur) dsub)
                above)
        | .right =>
          if isRed ur then
            match ur with
            | .node _ rk2 rv2 ra rb =>
              -- far red child: recolor, LeftRotate(P)
              .ok (plug (.node pc uk uv (.node .black pk pv dsub ul)
                (.node .black rk2 rv2 ra rb)) above)
            | .nil => .crash
          else if isRed ul then
            match ul with
            | .node _ lk2 lv2 la lb =>
              -- near red child: rotations cancel; recolors only.
              .ok (plug (.node .black pk pv dsub
                (.node .black uk uv (.node pc lk2 lv2 la lb) ur)) above)
            | .nil => .crash
          else
            if pc = .black then
              match above with
              | [] =>
                .ok (.node pc pk pv dsub (.node .red uk uv ul ur))
              | gf :: rest2 =>
                delAdjust fuel rest2 gf.c gf.k gf.v gf.dir.opp gf.sib
                  (.node pc pk pv dsub (.node .red uk uv ul ur))
            else
              .ok (plug (.node .black pk pv dsub (.node .red uk uv ul ur))
                above)

/-- Outcome of `rbTree_DelNode`: success carries the new root and the
(key, value) handed to `rbTreePrivate_FreeNodeMem` (whose resource the
`rbTree_FreeRuleHandle` cleanup receives); a missing key returns the
unchanged tree. -/
inductive DelR (K V : Type) : Type where
  | okT (t : Tree K V) (freed : K × V)
  | notFoundT (t : Tree K V)
  | crash
  | fuelOut
deriving DecidableEq

/-- `rbTreePrivate_DelBlackNodeAndAdjust`: detach the black leaf, free it,
and unless its sibling (`uncle`) is absent run the readjust loop. -/
def rbTreePrivate_DelBlackNodeAndAdjust (pf : Frame K V) (rest : Path K V)
    (freed : K × V) : DelR K V :=
  match pf.sib with
  | .nil => .okT (plug .nil (pf :: rest)) freed
  | .node uc uk uv ul ur =>
    match delAdjust (rest.length + 1) rest pf.c pf.k pf.v pf.dir.opp
      (.node uc uk uv ul ur) .nil with
    | .ok t2 => .okT t2 freed
    | .crash => .crash
    | .fuelOut => .fuelOut

/-- The tail of `rbTree_DelNode` after the two-children case has been
reduced away: splice a single child (forced black), or remove a childless
node (root / red leaf / black leaf with fix-up). -/
def removeAt (c : Color) (k : K) (v : V) (l r : Tree K V) (p : Path K V) :
    DelR K V :=
  match l with
  | .node _ lk lv ll lr => .okT (plug (.node .black lk lv ll lr) p) (k, v)
  | .nil =>
    match r with
    | .node _ rk rv rl rr => .okT (plug (.node .black rk rv rl rr) p) (k, v)
    | .nil =>
      match p with
      | [] => .okT .nil (k, v)
      | pf :: rest =>
        match c with
        | .red => .okT (plug .nil (pf :: rest)) (k, v)
        | .black => rbTreePrivate_DelBlackNodeAndAdjust pf rest (k, v)

/-- `rbTree_DelNode`: locate the key; on a two-children node exchange the
key/value payload with the in-order successor (`rbTreePrivate_ExchangeTwoNode`)
and delete the successor node instead; then splice or run the leaf cases. -/
def rbTree_DelNode (cmp : K → K → Int) (t : Tree K V) (i : K) : DelR K V :=
  match delSearch cmp i t [] with
  | none => .notFoundT t
  | some ((c, k, v, l, r), p) =>
    match l, r with
    | .node lc lk lv ll lr, .node rc rk rv rl rr =>
      match leftmostZ rc rk rv rl rr [] with
      | ((sc, sk, sv, sr), q) =>
        -- payloads exchanged: the target node now carries (sk, sv) and the
        -- successor node carries (k, v); delete the successor node.
        removeAt sc k v .nil sr
          (q ++ ⟨.right, c, sk, sv, .node lc lk lv ll lr⟩ :: p)
    | _, _ => removeAt c k v l r p

/-! ## Manager creation and destruction -/

/-- `sizeof(unsigned int)` on the mainstream ABIs this library targets. -/
def sizeofUnsignedInt : Nat := 4

/-- The swap-buffer allocation in `rbTree_Create`:
`malloc(sizeof(type_size))` — `type_size` is an `unsigned int` variable, so
the allocated size is `sizeof(unsigned int)` bytes, whatever `type_size`
holds. -/
def rbTree_bufferAlloc (_typeSize : Nat) : Nat := sizeofUnsignedInt

/-- Each of the three `memcpy`s in `rbTreePrivate_ExchangeTwoNode` moves
`index_typde_size` bytes through the swap buffer; they stay inside the
buffer exactly when the buffer is at least that large. -/
def exchangeInBounds (typeSize : Nat) : Bool :=
  typeSize ≤ rbTree_bufferAlloc typeSize

/-- `rbTree_Free`: the body null-checks the handle pointer and then just
sets `*rbTreeManager = NULL`.  No node is visited or freed and the
`rbTree_FreeRuleHandle` cleanup is never invoked; the second component is
the list of cleanup invocations (always empty). -/
def rbTree_Free (m : Option (Tree K V)) :
    Option (Tree K V) × List (K × V) :=
  match m with
  | none => (none, [])
  | some _ => (none, [])

/-- Number of nodes of a tree (what a correct destroy would have to free). -/
def numNodes : Tree K V → Nat
  | .nil => 0
  | .node _ _ _ l r => numNodes l + numNodes r + 1

/-! ## Red-black invariant checkers -/

/-- Invariant 1: the root, if present, is black. -/
def rootBlackB : Tree K V → Bool
  | .nil => true
  | .node c _ _ _ _ => c == .black

/-- Invariant 2: no red node has a red child. -/
def noRedRed : Tree K V → Bool
  | .nil => true
  | .node c _ _ l r =>
    (c == .black || (!isRed l && !isRed r)) && noRedRed l && noRedRed r

/-- Black height when every root-to-nil path agrees, `none` otherwise. -/
def bh : Tree K V → Option Nat
  | .nil => some 0
  | .node c _ _ l r =>
    match bh l, bh r with
    | some a, some b =>
      if a = b then some (a + (if c == .black then 1 else 0)) else none
    | _, _ => none

/-- Invariant 3: all root-to-nil paths carry the same number of blacks. -/
def blackBalanced (t : Tree K V) : Bool := (bh t).isSome

/-- `allKeys q t`: every key in `t` satisfies `q`. -/
def allKeys (q : K → Bool) : Tree K V → Bool
  | .nil => true
  | .node _ k _ l r => q k && allKeys q l && allKeys q r

/-- Invariant 4 (binary-search ordering as the code's descents use it):
at each node, left-subtree keys x satisfy `cmp k x < 0` and right-subtree
keys satisfy `cmp k x > 0`. -/
def ordered (cmp : K → K → Int) : Tree K V → Bool
  | .nil => true
  | .node _ k _ l r =>
    ordered cmp l && ordered cmp r &&
      allKeys (fun x => decide (cmp k x < 0)) l &&
      allKeys (fun x => decide (0 < cmp k x)) r

/-- All four red-black invariants. -/
def rbValid (cmp : K → K → Int) (t : Tree K V) : Bool :=
  rootBlackB t && noRedRed t && blackBalanced t && ordered cmp t

/-! ## Operation sequences -/

/-- A public mutating call. -/
inductive Op (K V : Type) : Type where
  | add (k : K) (v : V)
  | del (k : K)
deriving DecidableEq

/-- Run a sequence of public operations from a root, logging every payload
handed to `rbTreePrivate_FreeNodeMem` (one cleanup invocation each). -/
def runOps (cmp : K → K → Int) :
    List (Op K V) → Tree K V → List (K × V) →
    RunRes (Tree K V × List (K × V))
  | [], t, log => .ok (t, log)
  | .add k v :: ops, t, log =>
    match rbTree_AddNode cmp t k v with
    | .okT t2 => runOps cmp ops t2 log
    | .dupT t2 => runOps cmp ops t2 log
    | .crash => .crash
    | .fuelOut => .fuelOut
  | .del k :: ops, t, log =>
    match rbTree_DelNode cmp t k with
    | .okT t2 freed => runOps cmp ops t2 (log ++ [freed])
    | .notFoundT t2 => runOps cmp ops t2 log
    | .crash => .crash
    | .fuelOut => .fuelOut

/-- The tree after running a sequence from an empty tree, when no crash. -/
def runTree (cmp : K → K → Int) (ops : List (Op K V)) : Option (Tree K V) :=
  match runOps cmp ops .nil [] with
  | .ok (t, _) => some t
  | _ => none

/-! ## Comparators -/

/-- The comparator contract stated by the specification: zero exactly on
equal keys, antisymmetric up to sign, and transitive. -/
structure IsStrictCmp (cmp : K → K → Int) : Prop where
  eq_iff : ∀ a b, cmp a b = 0 ↔ a = b
  antisym : ∀ a b, cmp a b < 0 ↔ 0 < cmp b a
  trans : ∀ a b c, cmp a b < 0 → cmp b c < 0 → cmp a c < 0

/-- An integer comparator following the header's documented sign convention
(negative means "continue in the left subtree"), under which the code's
descents produce an ascending in-order sequence. -/
def intCmp (a b : Int) : Int :=
  if a < b then 1 else if b < a then -1 else 0

theorem intCmp_strict : IsStrictCmp intCmp := by
  refine ⟨fun a b => ?_, fun a b => ?_, fun a b c => ?_⟩ <;>
    simp only [intCmp] <;> split_ifs <;>
      first
      | omega
      | (constructor <;> intro h <;> simp_all)
      | (constructor <;> intro h <;> simp_all <;> omega)

/-! ## Basic lemmas about `toList`, `plug` and `ordered` -/

variable {cmp : K → K → Int}

theorem toList_blacken (t : Tree K V) : toList (blacken t) = toList t := by
  cases t <;> simp [blacken, toList]

/-- In-order elements strictly to the left of a path's hole. -/
def before : Path K V → List (K × V)
  | [] => []
  | ⟨.left, _, _, _, _⟩ :: rest => before rest
  | ⟨.right, _, k, v, sib⟩ :: rest => before rest ++ toList sib ++ [(k, v)]

/-- In-order elements strictly to the right of a path's hole. -/
def after : Path K V → List (K × V)
  | [] => []
  | ⟨.left, _, k, v, sib⟩ :: rest => (k, v) :: (toList sib ++ after rest)
  | ⟨.right, _, _, _, _⟩ :: rest => after rest

theorem toList_plug (t : Tree K V) (p : Path K V) :
    toList (plug t p) = before p ++ toList t ++ after p := by
  induction p generalizing t with
  | nil => simp [plug, before, after]
  | cons f rest ih =>
    obtain ⟨d, c, k, v, sib⟩ := f
    cases d <;> simp [plug, before, after, ih, toList, List.append_assoc]

theorem toList_plug_congr {t1 t2 : Tree K V} (p : Path K V)
    (h : toList t1 = toList t2) : toList (plug t1 p) = toList (plug t2 p) := by
  simp [toList_plug, h]

theorem before_append (q p : Path K V) :
    before (q ++ p) = before p ++ before q := by
  induction q with
  | nil => simp [before]
  | cons f rest ih =>
    obtain ⟨d, c, k, v, sib⟩ := f
    cases d <;> simp [before, ih, List.append_assoc]

theorem after_append (q p : Path K V) :
    after (q ++ p) = after q ++ after p := by
  induction q with
  | nil => simp [after]
  | cons f rest ih =>
    obtain ⟨d, c, k, v, sib⟩ := f
    cases d <;> simp [after, ih, List.append_assoc]

theorem allKeys_iff (q : K → Bool) (t : Tree K V) :
    allKeys q t = true ↔ ∀ kv ∈ toList t, q kv.1 = true := by
  induction t with
  | nil => simp [allKeys, toList]
  | node c k v l r ihl ihr =>
    simp only [allKeys, toList, Bool.and_eq_true, ihl, ihr, List.mem_append,
      List.mem_cons]
    constructor
    · rintro ⟨⟨hk, hl⟩, hr⟩ kv hkv
      rcases hkv with h | h | h
      · exact hl kv h
      · subst h; exact hk
      · exact hr kv h
    · intro h
      exact ⟨⟨h (k, v) (Or.inr (Or.inl rfl)), fun kv hkv => h kv (Or.inl hkv)⟩,
        fun kv hkv => h kv (Or.inr (Or.inr hkv))⟩

/-- Sortedness of an in-order list, as produced by the code's conventions:
for `a` before `b` in the list, `cmp b.1 a.1 < 0`. -/
def SortedK (cmp : K → K → Int) (l : List (K × V)) : Prop :=
  l.Pairwise (fun a b => cmp b.1 a.1 < 0)

theorem ordered_sorted (hc : IsStrictCmp cmp) {t : Tree K V}
    (ho : ordered cmp t = true) : SortedK cmp (toList t) := by
  induction t with
  | nil => simp [toList, SortedK]
  | node c k v l r ihl ihr =>
    simp only [ordered, Bool.and_eq_true, allKeys_iff, decide_eq_true_eq] at ho
    obtain ⟨⟨⟨hol, hor⟩, hal⟩, har⟩ := ho
    simp only [toList, SortedK, List.pairwise_append, List.pairwise_cons]
    refine ⟨ihl hol, ⟨fun b hb => ?_, ihr hor⟩, ?_⟩
    · exact (hc.antisym b.1 k).mpr (har b hb)
    · rintro a ha b hb
      rcases List.mem_cons.mp hb with h | h
      · subst h; exact hal a ha
      · exact hc.trans b.1 k a.1 ((hc.antisym b.1 k).mpr (har b h)) (hal a ha)

theorem sorted_ordered (hc : IsStrictCmp cmp) {t : Tree K V}
    (hs : SortedK cmp (toList t)) : ordered cmp t = true := by
  induction t with
  | nil => simp [ordered]
  | node c k v l r ihl ihr =>
    simp only [toList, SortedK, List.pairwise_append, List.pairwise_cons] at hs
    obtain ⟨hl, ⟨hkr, hr⟩, hcross⟩ := hs
    simp only [ordered, Bool.and_eq_true, allKeys_iff, decide_eq_true_eq]
    refine ⟨⟨⟨ihl hl, ihr hr⟩, ?_⟩, ?_⟩
    · exact fun kv hkv => hcross kv hkv (k, v) (List.mem_cons_self _ _)
    · exact fun kv hkv => (hc.antisym kv.1 k).mp (hkr kv hkv)

theorem ordered_congr (hc : IsStrictCmp cmp) {t1 t2 : Tree K V}
    (h : toList t1 = toList t2) (h1 : ordered cmp t1 = true) :
    ordered cmp t2 = true :=
  sorted_ordered hc (h ▸ ordered_sorted hc h1)

theorem ordered_plug_down {cmp : K → K → Int} {t : Tree K V} {p : Path K V}
    (hp : ordered cmp (plug t p) = true) : ordered cmp t = true := by
  induction p generalizing t with
  | nil => exact hp
  | cons f rest ih =>
    obtain ⟨d, c, k, v, sib⟩ := f
    cases d with
    | left =>
      have h2 := @ih (.node c k v t sib) hp
      simp only [ordered, Bool.and_eq_true] at h2
      exact h2.1.1.1
    | right =>
      have h2 := @ih (.node c k v sib t) hp
      simp only [ordered, Bool.and_eq_true] at h2
      exact h2.1.1.2

theorem sorted_key_unique (hc : IsStrictCmp cmp) {l : List (K × V)}
    (hs : SortedK cmp l) {i : K} {v w : V}
    (h1 : (i, v) ∈ l) (h2 : (i, w) ∈ l) : v = w := by
  induction l with
  | nil => simp at h1
  | cons x rest ih =>
    rw [SortedK, List.pairwise_cons] at hs
    rcases List.mem_cons.mp h1 with e1 | m1 <;>
      rcases List.mem_cons.mp h2 with e2 | m2
    · rw [← e1] at e2; exact (Prod.mk.injEq .. ▸ e2 : _ ∧ _).2.symm ▸ rfl
    · exfalso
      have := hs.1 (i, w) m2
      rw [← e1] at this
      simp only at this
      exact absurd ((hc.eq_iff i i).mpr rfl) (by omega)
    · exfalso
      have := hs.1 (i, v) m1
      rw [← e2] at this
      simp only at this
      exact absurd ((hc.eq_iff i i).mpr rfl) (by omega)
    · exact ih hs.2 m1 m2

/-! ## Search correctness -/

theorem search_found (hc : IsStrictCmp cmp) {t : Tree K V}
    (ho : ordered cmp t = true) {i : K} {v : V} (hm : (i, v) ∈ toList t) :
    rbTreePrivate_Search cmp t i = some (i, v) := by
  induction t with
  | nil => simp [toList] at hm
  | node c k w l r ihl ihr =>
    simp only [ordered, Bool.and_eq_true, allKeys_iff, decide_eq_true_eq] at ho
    obtain ⟨⟨⟨hol, hor⟩, hal⟩, har⟩ := ho
    simp only [toList, List.mem_append, List.mem_cons] at hm
    rw [rbTreePrivate_Search]
    split_ifs with h0 h1
    · have hik : i = k := (hc.eq_iff i k).mp h0
      subst hik
      rcases hm with h | h | h
      · have h3 : cmp i i < 0 := hal _ h
        exact absurd h3 (by have := (hc.eq_iff i i).mpr rfl; omega)
      · injection h with _ hv
        rw [hv]
      · have h3 : 0 < cmp i i := har _ h
        exact absurd h3 (by have := (hc.eq_iff i i).mpr rfl; omega)
    · rcases hm with h | h | h
      · exact ihl hol h
      · injection h with hk _
        exact absurd ((hc.eq_iff i k).mpr hk) h0
      · have h3 : 0 < cmp k i := har _ h
        exact absurd ((hc.antisym i k).mpr h3) (by omega)
    · rcases hm with h | h | h
      · have h3 : cmp k i < 0 := hal _ h
        exact absurd ((hc.antisym k i).mp h3) h1
      · injection h with hk _
        exact absurd ((hc.eq_iff i k).mpr hk) h0
      · exact ihr hor h

theorem keyList_node (c : Color) (k : K) (v : V) (l r : Tree K V) :
    keyList (.node c k v l r) = keyList l ++ k :: keyList r := by
  simp [keyList, toList]

theorem search_none (hc : IsStrictCmp cmp) {t : Tree K V}
    (ho : ordered cmp t = true) {i : K} (hnm : i ∉ keyList t) :
    rbTreePrivate_Search cmp t i = none := by
  induction t with
  | nil => rfl
  | node c k w l r ihl ihr =>
    simp only [ordered, Bool.and_eq_true] at ho
    obtain ⟨⟨⟨hol, hor⟩, _⟩, _⟩ := ho
    rw [keyList_node] at hnm
    simp only [List.mem_append, List.mem_cons, not_or] at hnm
    rw [rbTreePrivate_Search]
    split_ifs with h0 h1
    · exact absurd ((hc.eq_iff i k).mp h0) hnm.2.1
    · exact ihl hol hnm.1
    · exact ihr hor hnm.2.2

theorem value_unique (hc : IsStrictCmp cmp) {t : Tree K V}
    (ho : ordered cmp t = true) {i : K} {v w : V}
    (h1 : (i, v) ∈ toList t) (h2 : (i, w) ∈ toList t) : v = w :=
  sorted_key_unique hc (ordered_sorted hc ho) h1 h2

/-! ## Insert descent -/

/-- The side constraint a frame imposes on every key inside its hole. -/
def fitsF (cmp : K → K → Int) (x : K) (f : Frame K V) : Bool :=
  match f.dir with
  | .left => decide (cmp f.k x < 0)
  | .right => decide (0 < cmp f.k x)

/-- The conjunction of all frame constraints along a path. -/
def fitsPath (cmp : K → K → Int) (x : K) (p : Path K V) : Bool :=
  p.all (fitsF cmp x)

theorem addDescend_plug {i : K} {t : Tree K V} {p p' : Path K V}
    (h : addDescend cmp i t p = some p') : plug .nil p' = plug t p := by
  induction t generalizing p with
  | nil =>
    simp only [addDescend, Option.some_inj] at h
    rw [h]
  | node c k v l r ihl ihr =>
    rw [addDescend] at h
    split_ifs at h with h0 h1
    · exact ihl h
    · exact ihr h

theorem addDescend_fits {i : K} {t : Tree K V} {p p' : Path K V}
    (h : addDescend cmp i t p = some p') (hf : fitsPath cmp i p = true) :
    fitsPath cmp i p' = true := by
  induction t generalizing p with
  | nil =>
    simp only [addDescend, Option.some_inj] at h
    rw [← h]; exact hf
  | node c k v l r ihl ihr =>
    rw [addDescend] at h
    split_ifs at h with h0 h1
    · exact ihl h (by
        simp only [fitsPath, List.all_cons, Bool.and_eq_true]
        refine ⟨?_, hf⟩
        simp only [fitsF, decide_eq_true_eq]
        exact h1)
    · exact ihr h (by
        simp only [fitsPath, List.all_cons, Bool.and_eq_true]
        refine ⟨?_, hf⟩
        simp only [fitsF, decide_eq_true_eq]
        omega)

theorem addDescend_dup (hc : IsStrictCmp cmp) {i : K} {v : V} {t : Tree K V}
    (ho : ordered cmp t = true) (hm : (i, v) ∈ toList t) (p : Path K V) :
    addDescend cmp i t p = none := by
  induction t generalizing p with
  | nil => simp [toList] at hm
  | node c k w l r ihl ihr =>
    simp only [ordered, Bool.and_eq_true, allKeys_iff, decide_eq_true_eq] at ho
    obtain ⟨⟨⟨hol, hor⟩, hal⟩, har⟩ := ho
    simp only [toList, List.mem_append, List.mem_cons] at hm
    rw [addDescend]
    split_ifs with h0 h1
    · rfl
    · rcases hm with h | h | h
      · exact ihl hol h _
      · injection h with hk _
        exact absurd ((hc.eq_iff k i).mpr hk.symm) h0
      · have h3 : 0 < cmp k i := har _ h
        exact absurd h3 (by omega)
    · rcases hm with h | h | h
      · have h3 : cmp k i < 0 := hal _ h
        exact absurd h3 h1
      · injection h with hk _
        exact absurd ((hc.eq_iff k i).mpr hk.symm) h0
      · exact ihr hor h _

theorem before_after_rel (hc : IsStrictCmp cmp) {i : K} :
    ∀ (p : Path K V) (t : Tree K V), ordered cmp (plug t p) = true →
      fitsPath cmp i p = true →
      (∀ a ∈ before p, cmp i a.1 < 0) ∧ (∀ b ∈ after p, cmp b.1 i < 0) := by
  intro p
  induction p with
  | nil => intro t _ _; simp [before, after]
  | cons f rest ih =>
    obtain ⟨d, c, k, v, sib⟩ := f
    intro t hord hfit
    simp only [fitsPath, List.all_cons, Bool.and_eq_true] at hfit
    obtain ⟨hf, hfit⟩ := hfit
    cases d with
    | left =>
      have hord2 : ordered cmp (plug (.node c k v t sib) rest) = true := hord
      obtain ⟨ihb, iha⟩ := ih (.node c k v t sib) hord2 hfit
      have hnode := ordered_plug_down hord2
      simp only [ordered, Bool.and_eq_true, allKeys_iff, decide_eq_true_eq] at hnode
      obtain ⟨⟨⟨_, _⟩, _⟩, har⟩ := hnode
      simp only [fitsF, decide_eq_true_eq] at hf
      refine ⟨fun a ha => ihb a (by simpa [before] using ha), fun b hb => ?_⟩
      simp only [after, List.mem_cons, List.mem_append] at hb
      rcases hb with h | h | h
      · rw [h]; exact hf
      · exact hc.trans b.1 k i ((hc.antisym b.1 k).mpr (har b h)) hf
      · exact iha b h
    | right =>
      have hord2 : ordered cmp (plug (.node c k v sib t) rest) = true := hord
      obtain ⟨ihb, iha⟩ := ih (.node c k v sib t) hord2 hfit
      have hnode := ordered_plug_down hord2
      simp only [ordered, Bool.and_eq_true, allKeys_iff, decide_eq_true_eq] at hnode
      obtain ⟨⟨⟨_, _⟩, hal⟩, _⟩ := hnode
      simp only [fitsF, decide_eq_true_eq] at hf
      refine ⟨fun a ha => ?_, fun b hb => iha b (by simpa [after] using hb)⟩
      simp only [before, List.mem_append, List.mem_singleton] at ha
      rcases ha with (h | h) | h
      · exact ihb a h
      · exact hc.trans i k a.1 ((hc.antisym i k).mpr hf) (hal a h)
      · rw [h]; exact (hc.antisym i k).mpr hf

/-! ## The insert fix-up preserves the in-order list -/

theorem insertAdjust_toList (fuel : Nat) :
    ∀ (fc : Color) (fk : K) (fv : V) (fl fr : Tree K V) (p : Path K V)
      (t2 : Tree K V),
      rbTreePrivate_InsertAdjust fuel fc fk fv fl fr p = .ok t2 →
      toList t2 = toList (plug (.node fc fk fv fl fr) p) := by
  induction fuel with
  | zero =>
    intro fc fk fv fl fr p t2 h
    simp [rbTreePrivate_InsertAdjust] at h
  | succ fuel ih =>
    intro fc fk fv fl fr p t2 h
    rcases p with _ | ⟨⟨d, c, k, v, sib⟩, _ | ⟨⟨gd, gc, gk, gv, gsib⟩, rest2⟩⟩
    · rw [rbTreePrivate_InsertAdjust] at h
      cases h
      simp [toList_blacken, plug]
    · rw [rbTreePrivate_InsertAdjust] at h
      repeat' split at h
      all_goals first
        | exact RunRes.noConfusion h
        | (cases h
           simp_all [before, after, toList_blacken, toList_plug, plug, toList,
             List.append_assoc])
    · rw [rbTreePrivate_InsertAdjust] at h
      repeat' split at h
      all_goals first
        | exact RunRes.noConfusion h
        | (cases h
           simp_all [before, after, toList_blacken, toList_plug, plug, toList,
             List.append_assoc])
        | (rw [ih _ _ _ _ _ _ _ h]
           simp_all [before, after, toList_plug, plug, toList,
             List.append_assoc])

/-! ## The delete fix-up preserves the in-order list -/

set_option maxHeartbeats 1000000 in
theorem delAdjust_toList (fuel : Nat) :
    ∀ (above : Path K V) (pc : Color) (pk : K) (pv : V) (s : Dir)
      (uncle dsub : Tree K V) (t2 : Tree K V),
      delAdjust fuel above pc pk pv s uncle dsub = .ok t2 →
      toList t2 = toList (plug (mkP pc pk pv s uncle dsub) above) := by
  induction fuel with
  | zero =>
    intro above pc pk pv s uncle dsub t2 h
    simp [delAdjust] at h
  | succ fuel ih =>
    intro above pc pk pv s uncle dsub t2 h
    rw [delAdjust.eq_def] at h
    rcases above with _ | ⟨⟨gd, gc2, gk2, gv2, gsib2⟩, rest2⟩
    · dsimp only at h
      repeat' split at h
      all_goals first
        | exact RunRes.noConfusion h
        | exact RunRes.noConfusion h.symm
        | (cases h
           simp_all [mkP, Dir.opp, before, after, toList_plug, plug, toList,
             List.append_assoc])
    · cases gd <;> dsimp only at h
      all_goals repeat' split at h
      all_goals first
        | exact RunRes.noConfusion h
        | exact RunRes.noConfusion h.symm
        | (rw [ih _ _ _ _ _ _ _ _ h]
           simp_all [mkP, Dir.opp, before, after, toList_plug, plug, toList,
             List.append_assoc])
        | (rw [ih _ _ _ _ _ _ _ _ h.symm]
           simp_all [mkP, Dir.opp, before, after, toList_plug, plug, toList,
             List.append_assoc])
        | (cases h
           simp_all [mkP, Dir.opp, before, after, toList_plug, plug, toList,
             List.append_assoc])

/-! ## Delete path lemmas -/

theorem delSearch_plug {i : K} {c : Color} {k : K} {v : V}
    {l r : Tree K V} {p' : Path K V} :
    ∀ {t : Tree K V} {p0 : Path K V},
      delSearch cmp i t p0 = some ((c, k, v, l, r), p') →
      plug (.node c k v l r) p' = plug t p0 ∧ cmp i k = 0 := by
  intro t
  induction t with
  | nil => intro p0 h; simp [delSearch] at h
  | node c2 k2 v2 l2 r2 ihl ihr =>
    intro p0 h
    rw [delSearch] at h
    split_ifs at h with h0 h1
    · simp only [Option.some_inj, Prod.mk.injEq] at h
      obtain ⟨⟨e1, e2, e3, e4, e5⟩, e6⟩ := h
      subst e1; subst e2; subst e3; subst e4; subst e5; subst e6
      exact ⟨rfl, h0⟩
    · simpa [plug] using ihl h
    · simpa [plug] using ihr h

theorem delSearch_none (hc : IsStrictCmp cmp) {t : Tree K V}
    (ho : ordered cmp t = true) {i : K} (hnm : i ∉ keyList t)
    (p0 : Path K V) : delSearch cmp i t p0 = none := by
  induction t generalizing p0 with
  | nil => rfl
  | node c k w l r ihl ihr =>
    simp only [ordered, Bool.and_eq_true] at ho
    obtain ⟨⟨⟨hol, hor⟩, _⟩, _⟩ := ho
    rw [keyList_node] at hnm
    simp only [List.mem_append, List.mem_cons, not_or] at hnm
    rw [delSearch]
    split_ifs with h0 h1
    · exact absurd ((hc.eq_iff i k).mp h0) hnm.2.1
    · exact ihl hol hnm.1 _
    · exact ihr hor hnm.2.2 _

theorem leftmostZ_plug :
    ∀ (l : Tree K V) (c : Color) (k : K) (v : V) (r : Tree K V)
      (p : Path K V) (sc : Color) (sk : K) (sv : V) (sr : Tree K V)
      (q : Path K V),
      leftmostZ c k v l r p = ((sc, sk, sv, sr), q) →
      plug (.node sc sk sv .nil sr) q = plug (.node c k v l r) p := by
  intro l
  induction l with
  | nil =>
    intro c k v r p sc sk sv sr q h
    rw [leftmostZ] at h
    simp only [Prod.mk.injEq] at h
    obtain ⟨⟨e1, e2, e3, e4⟩, e5⟩ := h
    subst e1; subst e2; subst e3; subst e4; subst e5
    rfl
  | node lc lk lv ll lr ihl ihr =>
    intro c k v r p sc sk sv sr q h
    rw [leftmostZ] at h
    simpa [plug] using ihl lc lk lv lr (⟨.left, c, k, v, r⟩ :: p) sc sk sv sr q h

theorem leftmostZ_before :
    ∀ (l : Tree K V) (c : Color) (k : K) (v : V) (r : Tree K V)
      (p : Path K V) (sc : Color) (sk : K) (sv : V) (sr : Tree K V)
      (q : Path K V),
      leftmostZ c k v l r p = ((sc, sk, sv, sr), q) →
      before q = before p := by
  intro l
  induction l with
  | nil =>
    intro c k v r p sc sk sv sr q h
    rw [leftmostZ] at h
    simp only [Prod.mk.injEq] at h
    rw [← h.2]
  | node lc lk lv ll lr ihl ihr =>
    intro c k v r p sc sk sv sr q h
    rw [leftmostZ] at h
    simpa [before] using ihl lc lk lv lr (⟨.left, c, k, v, r⟩ :: p) sc sk sv sr q h

theorem delBlack_toList {pf : Frame K V} {rest : Path K V} {fr0 : K × V}
    {t2 : Tree K V} {fr2 : K × V}
    (h : rbTreePrivate_DelBlackNodeAndAdjust pf rest fr0 = .okT t2 fr2) :
    fr2 = fr0 ∧ toList t2 = toList (plug .nil (pf :: rest)) := by
  obtain ⟨d, c, k, v, sib⟩ := pf
  rw [rbTreePrivate_DelBlackNodeAndAdjust] at h
  cases d <;> rcases sib with _ | ⟨uc, uk, uv, ul, ur⟩ <;>
    dsimp only [Dir.opp] at h <;>
    repeat' split at h
  all_goals first
    | exact DelR.noConfusion h
    | exact DelR.noConfusion h.symm
    | (simp only [DelR.okT.injEq] at h
       obtain ⟨e1, e2⟩ := h
       subst e1
       exact ⟨e2.symm, rfl⟩)
    | (rename_i t' hda
       simp only [DelR.okT.injEq] at h
       obtain ⟨e1, e2⟩ := h
       subst e1
       refine ⟨e2.symm, ?_⟩
       rw [delAdjust_toList _ _ _ _ _ _ _ _ _ hda]
       simp [mkP, plug])

theorem removeAt_toList {c : Color} {k : K} {v : V} {l r : Tree K V}
    {p : Path K V} {t2 : Tree K V} {fr2 : K × V}
    (hlr : l = .nil ∨ r = .nil)
    (h : removeAt c k v l r p = .okT t2 fr2) :
    fr2 = (k, v) ∧ toList t2 = before p ++ (toList l ++ toList r) ++ after p := by
  rw [removeAt.eq_def] at h
  rcases l with _ | ⟨lc, lk, lv, ll, lr⟩
  · dsimp only at h
    rcases r with _ | ⟨rc, rk, rv, rl, rr⟩
    · dsimp only at h
      rcases p with _ | ⟨pf, rest⟩
      · dsimp only at h
        simp only [DelR.okT.injEq] at h
        obtain ⟨e1, e2⟩ := h
        subst e1
        simp [before, after, toList, e2.symm]
      · dsimp only at h
        rcases c with _ | _ <;> dsimp only at h
        · simp only [DelR.okT.injEq] at h
          obtain ⟨e1, e2⟩ := h
          subst e1
          simp [e2.symm, toList_plug, toList]
        · obtain ⟨e2, e3⟩ := delBlack_toList h
          rw [e2, e3]
          simp [toList_plug, toList]
    · dsimp only at h
      simp only [DelR.okT.injEq] at h
      obtain ⟨e1, e2⟩ := h
      subst e1
      simp [e2.symm, toList_plug, toList, List.append_assoc]
  · rcases hlr with h2 | h2
    · exact absurd h2 (by simp)
    · subst h2
      dsimp only at h
      simp only [DelR.okT.injEq] at h
      obtain ⟨e1, e2⟩ := h
      subst e1
      simp [e2.symm, toList_plug, toList, List.append_assoc]

theorem toList_eq_nil {t : Tree K V} (h : toList t = []) : t = .nil := by
  cases t with
  | nil => rfl
  | node c k v l r => simp [toList] at h

/-- All the content facts a successful delete yields, given the in-order
list of the input decomposes around the deleted pair. -/
theorem erase_conclusions (hc : IsStrictCmp cmp) {t t2 : Tree K V} {i : K}
    {v : V} {B C : List (K × V)}
    (ht : toList t = B ++ (i, v) :: C) (ht2 : toList t2 = B ++ C)
    (ho : ordered cmp t = true) :
    (i, v) ∈ toList t ∧
    ordered cmp t2 = true ∧
    toList t2 = (toList t).filter (fun kv => decide (cmp i kv.1 ≠ 0)) ∧
    rbTree_Search cmp t2 i = none ∧
    (∀ j w, cmp i j ≠ 0 → (j, w) ∈ toList t → rbTree_Search cmp t2 j = some w) ∧
    (toList t = [(i, v)] → t2 = .nil) := by
  have hs : SortedK cmp (toList t) := ordered_sorted hc ho
  rw [ht] at hs
  rw [SortedK, List.pairwise_append, List.pairwise_cons] at hs
  obtain ⟨hB, ⟨hvC, hC⟩, hcross⟩ := hs
  have hBi : ∀ a ∈ B, cmp i a.1 < 0 := fun a ha =>
    hcross a ha (i, v) (List.mem_cons_self _ _)
  have hCi : ∀ b ∈ C, cmp b.1 i < 0 := hvC
  have hii : cmp i i = 0 := (hc.eq_iff i i).mpr rfl
  have hs2 : SortedK cmp (toList t2) := by
    rw [ht2]
    have hsub : List.Sublist (B ++ C) (B ++ (i, v) :: C) :=
      List.Sublist.append_left (List.sublist_cons_self _ _) B
    exact List.Pairwise.sublist hsub (ht ▸ ordered_sorted hc ho)
  have ho2 : ordered cmp t2 = true := sorted_ordered hc hs2
  refine ⟨by rw [ht]; simp, ho2, ?_, ?_, ?_, ?_⟩
  · rw [ht, ht2]
    rw [List.filter_append]
    have e1 : B.filter (fun kv => decide (cmp i kv.1 ≠ 0)) = B := by
      rw [List.filter_eq_self]
      intro a ha
      have := hBi a ha
      simp only [decide_eq_true_eq]
      omega
    have e2 : ((i, v) :: C).filter (fun kv => decide (cmp i kv.1 ≠ 0)) = C := by
      rw [List.filter_cons]
      have hfalse : (decide (cmp i (i, v).1 ≠ 0)) = false := by
        simp only [decide_eq_false_iff_not, Decidable.not_not]
        exact hii
      rw [if_neg (by simp [hfalse])]
      rw [List.filter_eq_self]
      intro b hb
      have h2 := hCi b hb
      have h3 : 0 < cmp i b.1 := (hc.antisym b.1 i).mp h2
      simp only [decide_eq_true_eq]
      omega
    rw [e1, e2]
  · refine Option.map_eq_none.mpr (search_none hc ho2 ?_)
    rw [keyList, ht2]
    simp only [List.map_append, List.mem_append, List.mem_map, not_or]
    constructor
    · rintro ⟨a, ha, e⟩
      have := hBi a ha
      rw [e] at this
      omega
    · rintro ⟨b, hb, e⟩
      have := hCi b hb
      rw [e] at this
      omega
  · intro j w hij hm
    rw [ht] at hm
    simp only [List.mem_append, List.mem_cons] at hm
    have hm2 : (j, w) ∈ toList t2 := by
      rw [ht2]
      rcases hm with h2 | h2 | h2
      · exact List.mem_append.mpr (Or.inl h2)
      · exact absurd ((hc.eq_iff i j).mpr (by
          injection h2 with e _; exact e.symm)) hij
      · exact List.mem_append.mpr (Or.inr h2)
    have := search_found hc ho2 hm2
    rw [rbTree_Search, this]
    rfl
  · intro hone
    rw [ht] at hone
    rcases B with _ | ⟨b, B'⟩
    · simp only [List.nil_append, List.cons.injEq] at hone
      apply toList_eq_nil
      rw [ht2, hone.2]
      rfl
    · exfalso
      simp only [List.cons_append, List.cons.injEq] at hone
      have := hone.2
      exact absurd this (by simp)

set_option maxHeartbeats 1000000 in
/-- A successful `rbTree_DelNode` frees exactly the pair stored under the
deleted key and removes exactly that pair from the in-order list. -/
theorem delNode_erase (hc : IsStrictCmp cmp) {t : Tree K V}
    {i : K} {t2 : Tree K V} {fr2 : K × V}
    (h : rbTree_DelNode cmp t i = .okT t2 fr2) :
    fr2.1 = i ∧
    ∃ B C, toList t = B ++ (i, fr2.2) :: C ∧ toList t2 = B ++ C := by
  rw [rbTree_DelNode] at h
  cases hds : delSearch cmp i t [] with
  | none =>
    rw [hds] at h
    exact DelR.noConfusion h
  | some res =>
    obtain ⟨⟨c, k, v, l, r⟩, p⟩ := res
    rw [hds] at h
    obtain ⟨hplug, hcmp⟩ := delSearch_plug hds
    have hk : i = k := (hc.eq_iff i k).mp hcmp
    subst hk
    have hplug2 : plug (.node c i v l r) p = t := hplug
    have ht : toList t = before p ++ toList l ++ (i, v) :: toList r ++ after p := by
      rw [← hplug2, toList_plug]
      simp [toList, List.append_assoc]
    rcases l with _ | ⟨lc, lk, lv, ll, lr⟩ <;>
      rcases r with _ | ⟨rc, rk, rv, rl, rr⟩ <;> dsimp only at h
    · obtain ⟨e2, e3⟩ := removeAt_toList (Or.inl rfl) h
      subst e2
      refine ⟨rfl, before p, after p, ?_, ?_⟩
      · simpa [toList] using ht
      · simpa [toList] using e3
    · obtain ⟨e2, e3⟩ := removeAt_toList (Or.inl rfl) h
      subst e2
      refine ⟨rfl, before p, toList (.node rc rk rv rl rr) ++ after p, ?_, ?_⟩
      · simpa [toList, List.append_assoc] using ht
      · simpa [toList, List.append_assoc] using e3
    · obtain ⟨e2, e3⟩ := removeAt_toList (Or.inr rfl) h
      subst e2
      refine ⟨rfl, before p ++ toList (.node lc lk lv ll lr), after p, ?_, ?_⟩
      · simpa [toList, List.append_assoc] using ht
      · simpa [toList, List.append_assoc] using e3
    · rcases hlm : leftmostZ rc rk rv rl rr [] with ⟨⟨sc, sk, sv, sr⟩, q⟩
      rw [hlm] at h
      obtain ⟨e2, e3⟩ := removeAt_toList (Or.inl rfl) h
      subst e2
      have hq := leftmostZ_plug rl rc rk rv rr [] sc sk sv sr q hlm
      have hqb := leftmostZ_before rl rc rk rv rr [] sc sk sv sr q hlm
      have hr : toList (Tree.node rc rk rv rl rr) =
          (sk, sv) :: (toList sr ++ after q) := by
        rw [show (Tree.node rc rk rv rl rr) = plug (.node sc sk sv .nil sr) q
          from hq.symm, toList_plug, hqb]
        simp [before, toList]
      refine ⟨rfl, before p ++ toList (.node lc lk lv ll lr),
        (sk, sv) :: (toList sr ++ after q) ++ after p, ?_, ?_⟩
      · rw [ht, hr]
        simp [List.append_assoc]
      · rw [e3]
        simp only [before_append, after_append, before, after, hqb, toList,
          List.append_assoc, List.append_nil, List.nil_append]
        simp [List.append_assoc]

/-! ## Insert correctness pieces -/

theorem pairwise_insert_middle {α : Type} {R : α → α → Prop}
    {B A : List α} {x : α} (h : (B ++ A).Pairwise R)
    (hB : ∀ a ∈ B, R a x) (hA : ∀ b ∈ A, R x b) :
    (B ++ x :: A).Pairwise R := by
  rw [List.pairwise_append] at h
  rw [List.pairwise_append, List.pairwise_cons]
  refine ⟨h.1, ⟨hA, h.2.1⟩, fun a ha b hb => ?_⟩
  rcases List.mem_cons.mp hb with e | hb2
  · exact e ▸ hB a ha
  · exact h.2.2 a ha b hb2

/-- A successful `rbTree_AddNode` adds exactly the new pair to the in-order
list, keeping it sorted. -/
theorem addNode_content (hc : IsStrictCmp cmp) {t : Tree K V}
    (ho : ordered cmp t = true) {i : K} {v : V} {t2 : Tree K V}
    (h : rbTree_AddNode cmp t i v = .okT t2) :
    (i, v) ∈ toList t2 ∧ ordered cmp t2 = true := by
  rw [rbTree_AddNode] at h
  cases hd : addDescend cmp i t [] with
  | none =>
    rw [hd] at h
    exact AddR.noConfusion h
  | some p =>
    rw [hd] at h
    dsimp only at h
    cases hia : rbTreePrivate_InsertAdjust (p.length + 1) .red i v .nil .nil p with
    | crash => rw [hia] at h; exact AddR.noConfusion h
    | fuelOut => rw [hia] at h; exact AddR.noConfusion h
    | ok t3 =>
      rw [hia] at h
      have ht3 : t3 = t2 := by
        simpa [AddR.okT.injEq] using h
      subst ht3
      have hplug : plug .nil p = t := addDescend_plug hd
      have hfits : fitsPath cmp i p = true :=
        addDescend_fits hd (by simp [fitsPath])
      have ht2 : toList t3 = before p ++ (i, v) :: after p := by
        rw [insertAdjust_toList _ _ _ _ _ _ _ _ hia, toList_plug]
        simp [toList]
      have ht : toList t = before p ++ after p := by
        rw [← hplug, toList_plug]
        simp [toList]
      have hordp : ordered cmp (plug .nil p) = true := by rw [hplug]; exact ho
      obtain ⟨hBrel, hArel⟩ := before_after_rel hc p .nil hordp hfits
      constructor
      · rw [ht2]; simp
      · apply sorted_ordered hc
        rw [SortedK, ht2]
        refine pairwise_insert_middle ?_ ?_ ?_
        · have := ordered_sorted hc ho
          rw [ht] at this
          exact this
        · exact hBrel
        · exact hArel

/-! ## Never running out of fuel: the fix-up loops terminate -/

theorem insertAdjust_ne_fuelOut (fuel : Nat) :
    ∀ (fc : Color) (fk : K) (fv : V) (fl fr : Tree K V) (p : Path K V),
      p.length < fuel →
      rbTreePrivate_InsertAdjust fuel fc fk fv fl fr p ≠ .fuelOut := by
  induction fuel with
  | zero =>
    intro fc fk fv fl fr p hp
    exact absurd hp (by omega)
  | succ fuel ih =>
    intro fc fk fv fl fr p hp h
    rcases p with _ | ⟨⟨d, c, k, v, sib⟩, _ | ⟨⟨gd, gc, gk, gv, gsib⟩, rest2⟩⟩
    · rw [rbTreePrivate_InsertAdjust] at h
      exact RunRes.noConfusion h
    · rw [rbTreePrivate_InsertAdjust] at h
      repeat' split at h
      all_goals first
        | exact RunRes.noConfusion h
        | exact RunRes.noConfusion h.symm
    · rw [rbTreePrivate_InsertAdjust] at h
      have hlen : rest2.length < fuel := by
        simp only [List.length_cons] at hp
        omega
      repeat' split at h
      all_goals first
        | exact RunRes.noConfusion h
        | exact RunRes.noConfusion h.symm
        | exact ih _ _ _ _ _ _ hlen h
        | exact ih _ _ _ _ _ _ hlen h.symm

theorem delAdjust_ne_fuelOut (fuel : Nat) :
    ∀ (above : Path K V) (pc : Color) (pk : K) (pv : V) (s : Dir)
      (uncle dsub : Tree K V),
      above.length < fuel →
      delAdjust fuel above pc pk pv s uncle dsub ≠ .fuelOut := by
  induction fuel with
  | zero =>
    intro above pc pk pv s uncle dsub hp
    exact absurd hp (by omega)
  | succ fuel ih =>
    intro above pc pk pv s uncle dsub hp h
    rw [delAdjust.eq_def] at h
    rcases above with _ | ⟨⟨gd, gc2, gk2, gv2, gsib2⟩, rest2⟩
    · dsimp only at h
      repeat' split at h
      all_goals first
        | exact RunRes.noConfusion h
        | exact RunRes.noConfusion h.symm
    · have hlen : rest2.length < fuel := by
        simp only [List.length_cons] at hp
        omega
      cases gd <;> dsimp only at h
      all_goals repeat' split at h
      all_goals first
        | exact RunRes.noConfusion h
        | exact RunRes.noConfusion h.symm
        | exact ih _ _ _ _ _ _ _ hlen h
        | exact ih _ _ _ _ _ _ _ hlen h.symm

theorem delBlack_ne_fuelOut (pf : Frame K V) (rest : Path K V)
    (fr0 : K × V) : rbTreePrivate_DelBlackNodeAndAdjust pf rest fr0 ≠ .fuelOut := by
  intro h
  rw [rbTreePrivate_DelBlackNodeAndAdjust] at h
  rcases hs : pf.sib with _ | ⟨uc, uk, uv, ul, ur⟩ <;> rw [hs] at h <;>
    dsimp only at h
  · exact DelR.noConfusion h
  · cases hda : delAdjust (rest.length + 1) rest pf.c pf.k pf.v pf.dir.opp
        (.node uc uk uv ul ur) .nil with
    | ok t3 => rw [hda] at h; exact DelR.noConfusion h
    | crash => rw [hda] at h; exact DelR.noConfusion h
    | fuelOut => exact delAdjust_ne_fuelOut _ _ _ _ _ _ _ _ (by omega) hda

theorem removeAt_ne_fuelOut (c : Color) (k : K) (v : V) (l r : Tree K V)
    (p : Path K V) : removeAt c k v l r p ≠ .fuelOut := by
  intro h
  rw [removeAt.eq_def] at h
  rcases l with _ | ⟨lc, lk, lv, ll, lr⟩ <;> dsimp only at h
  · rcases r with _ | ⟨rc, rk, rv, rl, rr⟩ <;> dsimp only at h
    · rcases p with _ | ⟨pf, rest⟩ <;> dsimp only at h
      · exact DelR.noConfusion h
      · rcases c with _ | _ <;> dsimp only at h
        · exact DelR.noConfusion h
        · exact delBlack_ne_fuelOut _ _ _ h
    · exact DelR.noConfusion h
  · exact DelR.noConfusion h

theorem delNode_ne_fuelOut (cmp : K → K → Int) (t : Tree K V) (i : K) :
    rbTree_DelNode cmp t i ≠ .fuelOut := by
  intro h
  rw [rbTree_DelNode] at h
  cases hds : delSearch cmp i t [] with
  | none => rw [hds] at h; exact DelR.noConfusion h
  | some res =>
    obtain ⟨⟨c, k, v, l, r⟩, p⟩ := res
    rw [hds] at h
    rcases l with _ | ⟨lc, lk, lv, ll, lr⟩ <;>
      rcases r with _ | ⟨rc, rk, rv, rl, rr⟩ <;> dsimp only at h
    · exact removeAt_ne_fuelOut _ _ _ _ _ _ h
    · exact removeAt_ne_fuelOut _ _ _ _ _ _ h
    · exact removeAt_ne_fuelOut _ _ _ _ _ _ h
    · rcases hlm : leftmostZ rc rk rv rl rr [] with ⟨⟨sc, sk, sv, sr⟩, q⟩
      rw [hlm] at h
      exact removeAt_ne_fuelOut _ _ _ _ _ _ h

theorem addNode_ne_fuelOut (cmp : K → K → Int) (t : Tree K V) (i : K)
    (v : V) : rbTree_AddNode cmp t i v ≠ .fuelOut := by
  intro h
  rw [rbTree_AddNode] at h
  cases hd : addDescend cmp i t [] with
  | none => rw [hd] at h; exact AddR.noConfusion h
  | some p =>
    rw [hd] at h
    dsimp only at h
    cases hia : rbTreePrivate_InsertAdjust (p.length + 1) .red i v .nil .nil p with
    | ok t3 => rw [hia] at h; exact AddR.noConfusion h
    | crash => rw [hia] at h; exact AddR.noConfusion h
    | fuelOut => exact insertAdjust_ne_fuelOut _ _ _ _ _ _ _ (by omega) hia

/-! ## Insertion never crashes on a black-rooted tree -/

/-- The outermost frame of a path (the tree root, once the path reaches it)
is black.  On the empty path this is vacuously true. -/
def lastBlack : Path K V → Bool
  | [] => true
  | [f] => f.c == .black
  | _ :: f :: rest => lastBlack (f :: rest)

theorem lastBlack_cons_cons (f g : Frame K V) (rest : Path K V) :
    lastBlack (f :: g :: rest) = lastBlack (g :: rest) := rfl

theorem addDescend_lastBlack {i : K} :
    ∀ {t : Tree K V} {p0 p' : Path K V},
      addDescend cmp i t p0 = some p' →
      lastBlack p0 = true → (p0 = [] → rootBlackB t = true) →
      lastBlack p' = true := by
  intro t
  induction t with
  | nil =>
    intro p0 p' h h1 _
    simp only [addDescend, Option.some_inj] at h
    rw [← h]
    exact h1
  | node c k v l r ihl ihr =>
    intro p0 p' h h1 h2
    rw [addDescend] at h
    have hstep : ∀ f : Frame K V, f.c = c → lastBlack (f :: p0) = true := by
      intro f hf
      rcases p0 with _ | ⟨g, rest⟩
      · have : c = .black := by
          have h3 := h2 rfl
          simpa [rootBlackB] using h3
        simp [lastBlack, hf, this]
      · rw [lastBlack_cons_cons]
        exact h1
    split_ifs at h with h0 h3
    · exact ihl h (hstep _ rfl) (by simp)
    · exact ihr h (hstep _ rfl) (by simp)

theorem insertAdjust_ne_crash (fuel : Nat) :
    ∀ (fc : Color) (fk : K) (fv : V) (fl fr : Tree K V) (p : Path K V),
      lastBlack p = true →
      rbTreePrivate_InsertAdjust fuel fc fk fv fl fr p ≠ .crash := by
  induction fuel with
  | zero =>
    intro fc fk fv fl fr p _ h
    rw [rbTreePrivate_InsertAdjust] at h
    exact RunRes.noConfusion h
  | succ fuel ih =>
    intro fc fk fv fl fr p hlb h
    rcases p with _ | ⟨⟨d, c, k, v, sib⟩, _ | ⟨⟨gd, gc, gk, gv, gsib⟩, rest2⟩⟩
    · rw [rbTreePrivate_InsertAdjust] at h
      exact RunRes.noConfusion h
    · rw [rbTreePrivate_InsertAdjust] at h
      repeat' split at h
      all_goals first
        | exact RunRes.noConfusion h
        | exact RunRes.noConfusion h.symm
        | (exfalso
           rename_i hred
           simp only [lastBlack] at hlb
           simp only at hred
           rw [hred] at hlb
           simp at hlb)
    · have hlb2 : lastBlack rest2 = true := by
        rcases rest2 with _ | ⟨f3, rest3⟩
        · rfl
        · rw [lastBlack_cons_cons, lastBlack_cons_cons] at hlb
          exact hlb
      rw [rbTreePrivate_InsertAdjust] at h
      repeat' split at h
      all_goals first
        | exact RunRes.noConfusion h
        | exact RunRes.noConfusion h.symm
        | exact ih _ _ _ _ _ _ hlb2 h
        | exact ih _ _ _ _ _ _ hlb2 h.symm

/-- Once the descent has found a free slot (allocation always succeeds in
the model), insertion completes: on a black-rooted tree `rbTree_AddNode`
returns either success or the duplicate-key error, never a crash and never
fuel exhaustion. -/
theorem addNode_completes (cmp : K → K → Int) (t : Tree K V) (i : K) (v : V)
    (hrb : rootBlackB t = true) :
    (∃ t2, rbTree_AddNode cmp t i v = .okT t2) ∨
      rbTree_AddNode cmp t i v = .dupT t := by
  rw [rbTree_AddNode]
  cases hd : addDescend cmp i t [] with
  | none => exact Or.inr rfl
  | some p =>
    dsimp only
    have hlb : lastBlack p = true :=
      addDescend_lastBlack hd rfl (fun _ => hrb)
    cases hia : rbTreePrivate_InsertAdjust (p.length + 1) .red i v .nil .nil p with
    | ok t3 => exact Or.inl ⟨t3, rfl⟩
    | crash => exact absurd hia (insertAdjust_ne_crash _ _ _ _ _ _ _ hlb)
    | fuelOut => exact absurd hia (insertAdjust_ne_fuelOut _ _ _ _ _ _ _ (by omega))

/-! ## Claim theorems -/

/-- C1: the claim states that after every mutating public operation on a
reachable tree all four red-black invariants hold, in particular after the
delete fix-up's red-sibling case.  The code violates this: inserting
50, 20, 60, 10, 30, 35 and deleting 60 exercises exactly the red-sibling
double-rotation and leaves a RED node with a RED child, and inserting
10, 5, 20, 7 and deleting 20 exercises the black-sibling near-red-child
case (whose two rotations cancel) and leaves unequal black counts on
root-to-nil paths.  This theorem evaluates the embedded code at both
failing inputs. -/
theorem C1_delete_breaks_invariants :
    (runTree intCmp [Op.add (50 : Int) (50 : Int), .add 20 20, .add 60 60,
        .add 10 10, .add 30 30, .add 35 35, .del 60]).map noRedRed =
      some false ∧
    (runTree intCmp [Op.add (10 : Int) (10 : Int), .add 5 5, .add 20 20,
        .add 7 7, .del 20]).map blackBalanced = some false ∧
    (runTree intCmp [Op.add (50 : Int) (50 : Int), .add 20 20, .add 60 60,
        .add 10 10, .add 30 30, .add 35 35]).map (rbValid intCmp) =
      some true ∧
    (runTree intCmp [Op.add (10 : Int) (10 : Int), .add 5 5, .add 20 20,
        .add 7 7]).map (rbValid intCmp) = some true := by decide

/-- C2: for every ordered tree and every key present in it, when
`rbTree_DelNode` succeeds it frees the pair originally stored under the
key, after which searching the key reports NotFound while every other key
is still found with its original value; the in-order sequence loses
exactly the deleted pair (so a two-children deletion preserves the order
of all other keys), and deleting the sole remaining node leaves the empty
tree. -/
theorem C2_delete_content (hc : IsStrictCmp cmp) {t : Tree K V}
    (ho : ordered cmp t = true) {i : K} {t2 : Tree K V} {fr2 : K × V}
    (h : rbTree_DelNode cmp t i = .okT t2 fr2) :
    fr2.1 = i ∧
    (i, fr2.2) ∈ toList t ∧
    rbTree_Search cmp t2 i = none ∧
    (∀ j w, cmp i j ≠ 0 → (j, w) ∈ toList t → rbTree_Search cmp t2 j = some w) ∧
    toList t2 = (toList t).filter (fun kv => decide (cmp i kv.1 ≠ 0)) ∧
    ordered cmp t2 = true ∧
    (toList t = [(i, fr2.2)] → t2 = .nil) := by
  obtain ⟨h1, B, C, hB, hC⟩ := delNode_erase hc h
  obtain ⟨m1, o2, flt, sn, oth, sole⟩ := erase_conclusions hc hB hC ho
  exact ⟨h1, m1, sn, oth, flt, o2, sole⟩

theorem C2_delete_content_witness :
    rbTree_Search intCmp
        (.node .black 3 30 (.node .red 1 10 .nil .nil) .nil : Tree Int Int)
        2 = none ∧
    rbTree_Search intCmp
        (.node .black 3 30 (.node .red 1 10 .nil .nil) .nil : Tree Int Int)
        1 = some 10 := by
  have h := C2_delete_content intCmp_strict
    (show ordered intCmp
        (.node .black 2 20 (.node .red 1 10 .nil .nil)
          (.node .red 3 30 .nil .nil) : Tree Int Int) = true by decide)
    (show rbTree_DelNode intCmp
        (.node .black 2 20 (.node .red 1 10 .nil .nil)
          (.node .red 3 30 .nil .nil) : Tree Int Int) 2 =
      .okT (.node .black 3 30 (.node .red 1 10 .nil .nil) .nil) (2, 20)
      by decide)
  exact ⟨h.2.2.1, h.2.2.2.1 1 10 (by decide) (by decide)⟩

/-- C3: inserting a key already present (the comparator returns 0 against a
node met during the descent) fails with DuplicateKey and returns before any
mutation, leaving the tree unchanged with no node allocated; deleting an
absent key fails with NotFound and performs no mutation. -/
theorem C3_failed_ops_no_mutation (hc : IsStrictCmp cmp) {t : Tree K V}
    (ho : ordered cmp t = true) (i : K) :
    (∀ (v v0 : V), (i, v0) ∈ toList t →
      rbTree_AddNode cmp t i v = .dupT t) ∧
    (i ∉ keyList t → rbTree_DelNode cmp t i = .notFoundT t) := by
  constructor
  · intro v v0 hm
    rw [rbTree_AddNode, addDescend_dup hc ho hm]
  · intro hnm
    rw [rbTree_DelNode, delSearch_none hc ho hnm]

theorem C3_failed_ops_no_mutation_witness :
    rbTree_AddNode intCmp
        (.node .black 2 20 .nil .nil : Tree Int Int) 2 99 =
      .dupT (.node .black 2 20 .nil .nil) ∧
    rbTree_DelNode intCmp
        (.node .black 2 20 .nil .nil : Tree Int Int) 5 =
      .notFoundT (.node .black 2 20 .nil .nil) := by
  have h := C3_failed_ops_no_mutation intCmp_strict
    (show ordered intCmp
        (.node .black 2 20 .nil .nil : Tree Int Int) = true by decide) 2
  have h5 := C3_failed_ops_no_mutation intCmp_strict
    (show ordered intCmp
        (.node .black 2 20 .nil .nil : Tree Int Int) = true by decide) 5
  exact ⟨h.1 99 20 (by decide), h5.2 (by decide)⟩

/-- C4: the claim states that inserting N distinct keys and then deleting
all N (any orders) leaves an empty tree with the cleanup callback invoked
exactly N times.  The code violates this: inserting 5, 7, 6, 1, 2, 3, 4
and deleting 6, 7, 1, 5, 4, 2, 3 dereferences a NULL sibling pointer
during the fourth delete's fix-up ascent (the re-seeded sibling is NULL
and the loop reads its color), so the round trip never completes.  This
theorem evaluates the embedded code at that failing input. -/
theorem C4_roundtrip_crashes :
    runOps intCmp [Op.add (5 : Int) (5 : Int), .add 7 7, .add 6 6,
      .add 1 1, .add 2 2, .add 3 3, .add 4 4,
      .del 6, .del 7, .del 1, .del 5, .del 4, .del 2, .del 3] .nil [] =
      .crash := by decide

/-- C5: for every comparator satisfying the stated contract and every
ordered tree, after a successful `rbTree_AddNode` of key `i` with value
`v`, `rbTree_Search` on `i` returns exactly `v` — the insert path
(`cmp(node, candidate)`) and the search path (`cmp(candidate, node)`)
place and locate keys consistently despite the swapped argument order —
and the tree stays ordered. -/
theorem C5_insert_then_search (hc : IsStrictCmp cmp) {t : Tree K V}
    (ho : ordered cmp t = true) {i : K} {v : V} {t2 : Tree K V}
    (h : rbTree_AddNode cmp t i v = .okT t2) :
    rbTree_Search cmp t2 i = some v ∧ ordered cmp t2 = true := by
  obtain ⟨hm, ho2⟩ := addNode_content hc ho h
  refine ⟨?_, ho2⟩
  rw [rbTree_Search, search_found hc ho2 hm]
  rfl

theorem C5_insert_then_search_witness :
    rbTree_Search intCmp (.node .black 5 7 .nil .nil : Tree Int Int) 5 =
      some 7 :=
  (C5_insert_then_search intCmp_strict
    (show ordered intCmp (.nil : Tree Int Int) = true by decide)
    (show rbTree_AddNode intCmp (.nil : Tree Int Int) 5 (7 : Int) =
      .okT (.node .black 5 7 .nil .nil) by decide)).1

/-- C6: the claim states that `rbTree_Free` releases every node reachable
from the root and invokes the cleanup callback once per node.  The code
only sets the manager handle to NULL: no node is visited or freed and the
cleanup callback is never invoked.  This theorem evaluates the embedded
`rbTree_Free` on a one-node tree: zero cleanup invocations instead of
one. -/
theorem C6_free_releases_nothing :
    (rbTree_Free (some (Tree.node .black (1 : Int) (10 : Int)
        .nil .nil))).2.length = 0 ∧
    numNodes (Tree.node .black (1 : Int) (10 : Int) .nil .nil) = 1 ∧
    (rbTree_Free (some (Tree.node .black (1 : Int) (10 : Int)
        .nil .nil))).2.length ≠
      numNodes (Tree.node .black (1 : Int) (10 : Int) .nil .nil) := by
  decide

/-- C7: the claim states that the manager's swap buffer holds at least
`key_width` bytes so the three `memcpy`s of the two-children deletion stay
in bounds.  The code allocates `malloc(sizeof(type_size))` — the size of
an `unsigned int`, 4 bytes — regardless of `type_size`, so any key width
above 4 (e.g. 8) overflows the buffer. -/
theorem C7_swap_buffer_too_small :
    rbTree_bufferAlloc 8 = 4 ∧
    exchangeInBounds 8 = false ∧
    ¬8 ≤ rbTree_bufferAlloc 8 ∧
    exchangeInBounds 4 = true := by decide

/-- C8: inserting 10, 20, 30 in that order into a fresh tree yields the
black root 20 with red children 10 (left) and 30 (right); deleting 20 then
yields a tree containing exactly the keys 10 and 30 that satisfies all
red-black invariants, after which search(20) is NotFound while search(10)
and search(30) return their stored values. -/
theorem C8_concrete_scenario :
    runTree intCmp [Op.add (10 : Int) (10 : Int), .add 20 20, .add 30 30] =
      some (.node .black 20 20 (.node .red 10 10 .nil .nil)
        (.node .red 30 30 .nil .nil)) ∧
    runTree intCmp [Op.add (10 : Int) (10 : Int), .add 20 20, .add 30 30,
        .del 20] =
      some (.node .black 30 30 (.node .red 10 10 .nil .nil) .nil) ∧
    rbValid intCmp
      (.node .black 30 30 (.node .red 10 10 .nil .nil) .nil : Tree Int Int) =
      true ∧
    keyList (.node .black 30 30 (.node .red 10 10 .nil .nil) .nil :
      Tree Int Int) = [10, 30] ∧
    rbTree_Search intCmp
      (.node .black 30 30 (.node .red 10 10 .nil .nil) .nil : Tree Int Int)
      20 = none ∧
    rbTree_Search intCmp
      (.node .black 30 30 (.node .red 10 10 .nil .nil) .nil : Tree Int Int)
      10 = some 10 ∧
    rbTree_Search intCmp
      (.node .black 30 30 (.node .red 10 10 .nil .nil) .nil : Tree Int Int)
      30 = some 30 := by decide

/-- C9: on every ordered tree, `rbTree_Search` returns the stored value of
the unique node whose key the comparator reports equal to the given key,
and NotFound (none) when no such node exists; being a pure function of the
tree it performs no mutation. -/
theorem C9_search_correct (hc : IsStrictCmp cmp) {t : Tree K V}
    (ho : ordered cmp t = true) (i : K) :
    (∀ v, (i, v) ∈ toList t → rbTree_Search cmp t i = some v) ∧
    ((∀ v, (i, v) ∉ toList t) → rbTree_Search cmp t i = none) ∧
    (∀ v w, (i, v) ∈ toList t → (i, w) ∈ toList t → v = w) := by
  refine ⟨fun v hm => ?_, fun hnm => ?_,
    fun v w h1 h2 => value_unique hc ho h1 h2⟩
  · rw [rbTree_Search, search_found hc ho hm]
    rfl
  · have hk : i ∉ keyList t := by
      intro hmem
      rw [keyList, List.mem_map] at hmem
      obtain ⟨⟨a, b⟩, hab, e⟩ := hmem
      simp only at e
      subst e
      exact hnm b hab
    rw [rbTree_Search, search_none hc ho hk]
    rfl

theorem C9_search_correct_witness :
    rbTree_Search intCmp
        (.node .black 2 20 (.node .red 1 10 .nil .nil)
          (.node .red 3 30 .nil .nil) : Tree Int Int) 3 = some 30 ∧
    rbTree_Search intCmp
        (.node .black 2 20 (.node .red 1 10 .nil .nil)
          (.node .red 3 30 .nil .nil) : Tree Int Int) 7 = none := by
  have h := C9_search_correct intCmp_strict
    (show ordered intCmp
        (.node .black 2 20 (.node .red 1 10 .nil .nil)
          (.node .red 3 30 .nil .nil) : Tree Int Int) = true by decide) 3
  have h7 := C9_search_correct intCmp_strict
    (show ordered intCmp
        (.node .black 2 20 (.node .red 1 10 .nil .nil)
          (.node .red 3 30 .nil .nil) : Tree Int Int) = true by decide) 7
  refine ⟨h.1 30 (by decide), h7.2.1 ?_⟩
  intro v hv
  simp [toList, Prod.ext_iff] at hv

/-- C10: both fix-up procedures terminate — the loops never exhaust a fuel
budget of one more than the ancestor-path length, because the insert
fix-up ascends two levels per recoloring iteration and the delete fix-up's
ascent consumes one ancestor per re-seeding — and once node allocation
succeeds (always, in the model), insertion on a black-rooted tree
completes: `rbTree_AddNode` returns success or DuplicateKey, never a crash
or fuel exhaustion; `rbTree_DelNode` likewise never exhausts fuel. -/
theorem C10_fixups_terminate (cmp : K → K → Int) (t : Tree K V) (i : K)
    (v : V) (hrb : rootBlackB t = true) :
    rbTree_AddNode cmp t i v ≠ .fuelOut ∧
    rbTree_DelNode cmp t i ≠ .fuelOut ∧
    (∀ (fuel : Nat) (p : Path K V) (fc : Color) (fk : K) (fv : V)
      (fl fr : Tree K V), p.length < fuel →
      rbTreePrivate_InsertAdjust fuel fc fk fv fl fr p ≠ .fuelOut) ∧
    (∀ (fuel : Nat) (above : Path K V) (pc : Color) (pk : K) (pv : V)
      (s : Dir) (uncle dsub : Tree K V), above.length < fuel →
      delAdjust fuel above pc pk pv s uncle dsub ≠ .fuelOut) ∧
    ((∃ t2, rbTree_AddNode cmp t i v = .okT t2) ∨
      rbTree_AddNode cmp t i v = .dupT t) :=
  ⟨addNode_ne_fuelOut cmp t i v,
   delNode_ne_fuelOut cmp t i,
   fun fuel p fc fk fv fl fr hl =>
     insertAdjust_ne_fuelOut fuel fc fk fv fl fr p hl,
   fun fuel above pc pk pv s uncle dsub hl =>
     delAdjust_ne_fuelOut fuel above pc pk pv s uncle dsub hl,
   addNode_completes cmp t i v hrb⟩

theorem C10_fixups_terminate_witness :
    rootBlackB (Tree.nil : Tree Int Int) = true ∧
    rbTree_AddNode intCmp (Tree.nil : Tree Int Int) 1 1 ≠ .fuelOut :=
  ⟨by decide, (C10_fixups_terminate intCmp (Tree.nil : Tree Int Int) 1 1
    (by decide)).1⟩

end RBTree
